import Mathlib

/-!
Verification of the veriform message parser (`parser.go`).

The parser is embedded shallowly:

* A byte is a `Nat` (the Go code never does byte arithmetic itself; all
  byte-level work happens in the external varint codec).
* The parser's nesting stack `p.remaining : [][]byte` is a
  `List (List Nat)` with the top of the stack at the HEAD of the list
  (Go appends at the end; the head-at-top representation is the same
  stack up to reversal and makes the push/pop discipline structural).
* The builder callbacks (`Uint64`, `Bytes`, `BeginNested`, `EndNested`)
  are modelled as an event trace: each parsing function returns the list
  of callback invocations it performed, in order.  Events emitted before
  an error are kept (the callbacks really did run before the error).
* Go errors are an explicit `PError` type mirroring the error taxonomy.
* The external varint codec `DecodeVarint(reader)` is a parameter
  `dv : List Nat → Option (Nat × Nat)` returning the decoded value and
  the number of bytes consumed, exactly the information the Go code
  extracts from the `bytes.Reader` (`value` and `len(slice)-reader.Len()`).
  A concrete codec modelled from the spec is provided further down for
  concrete runs.
* The recursion `Parse → parseMessage → Parse` and the field loop inside
  `Parse` are fuel-indexed (structural recursion on a `Nat` fuel);
  exhausting the fuel yields the distinguished `PError.outOfFuel`,
  which corresponds to no Go error (with enough fuel it never occurs).
* Each result additionally carries a ghost field `peak`: the maximum
  stack length attained at any point during the call (entry state
  included).  It is pure instrumentation for stating the stack-depth
  invariant; it never influences control flow.
-/

namespace Veriform

/-- The nesting stack `p.remaining`: byte views, top of stack at the head. -/
abbrev Stack := List (List Nat)

/-- One builder-callback invocation (`handler` interface in `parser.go`). -/
inductive Event where
  | uint64 (fieldID : Nat) (value : Nat)
  | bytes (fieldID : Nat) (data : List Nat)
  | beginNested
  | endNested (fieldID : Nat)
deriving DecidableEq, Repr

/-- The parser's error taxonomy, mirroring the `fmt.Errorf` sites in
`parser.go`.  Two constructors model Go panics rather than returned
errors: `stackUnderflow` (indexing an empty `p.remaining`, unreachable
through the public entry points) and `sliceBoundsPanic` (the
`remaining[:length]` slice in `parseLengthPrefixedData` when the length
check was skipped because `int(length)` wrapped negative).  `outOfFuel`
marks fuel exhaustion of the embedding (not a Go error). -/
inductive PError where
  | oversizedMessage (size limit : Nat)
  | maxDepthExceeded (limit : Nat)
  | varintDecodeError
  | truncated (want avail : Nat)
  | unknownWireType (wireType : Nat)
  | incompleteParse (count : Nat)
  | stackUnderflow
  | sliceBoundsPanic
  | outOfFuel
deriving DecidableEq, Repr

deriving instance DecidableEq for Except

/-- Result of a helper that produces no callbacks: the stack it leaves
behind, the ghost peak stack length, and the value or error. -/
structure VRes (α : Type) where
  stack : Stack
  peak : Nat
  out : Except PError α
deriving DecidableEq, Repr

/-- Result of a parsing step that may invoke callbacks: the stack left
behind, the ghost peak stack length, the callbacks invoked (in order),
and the error, if any. -/
structure PRes where
  stack : Stack
  peak : Nat
  events : List Event
  err : Option PError
deriving DecidableEq, Repr

/-- `parseVarint` (`parser.go:92`): pop the top view, run the varint codec
on it, and return the decoded value together with the unconsumed suffix
of the popped view.  On a codec error the stack stays popped (the Go code
returns without restoring it). -/
def parseVarint (dv : List Nat → Option (Nat × Nat)) (st : Stack) :
    VRes (Nat × List Nat) :=
  match st with
  | [] => ⟨[], 0, .error .stackUnderflow⟩
  | slice :: rest =>
    match dv slice with
    | none => ⟨rest, rest.length + 1, .error .varintDecodeError⟩
    | some (value, n) => ⟨rest, rest.length + 1, .ok (value, slice.drop n)⟩

/-- `parseFieldPrefix` (`parser.go:106`): decode one varint, push the
remainder back, and split the value into `fieldID = value >> 3` and
`wireType = value & 0x7`. -/
def parseFieldPrefix (dv : List Nat → Option (Nat × Nat)) (st : Stack) :
    VRes (Nat × Nat) :=
  let r := parseVarint dv st
  match r.out with
  | .error e => ⟨r.stack, r.peak, .error e⟩
  | .ok (value, remaining) =>
    ⟨remaining :: r.stack, max r.peak (r.stack.length + 1),
      .ok (value >>> 3, value &&& 0x7)⟩

/-- `parseUint64` (`parser.go:121`): decode one varint, push the
remainder back, and invoke `Uint64(fieldID, value)`. -/
def parseUint64 (dv : List Nat → Option (Nat × Nat)) (fieldID : Nat)
    (st : Stack) : PRes :=
  let r := parseVarint dv st
  match r.out with
  | .error e => ⟨r.stack, r.peak, [], some e⟩
  | .ok (value, remaining) =>
    ⟨remaining :: r.stack, max r.peak (r.stack.length + 1),
      [.uint64 fieldID value], none⟩

/-- `parseLengthPrefixedData` (`parser.go:134`): decode a length varint;
if fewer bytes remain than declared fail with `truncated`, otherwise
return the first `length` bytes and push back the rest.  The Go check at
`parser.go:140` is `len(remaining) < int(length)` with `length` a
`uint64`: for `length < 2^63` the conversion is the identity and the
check fires as expected, but for `length ≥ 2^63` `int(length)` wraps
negative, the comparison is false, the check is skipped, and the
subsequent `remaining[:length]` panics when `length` exceeds the slice
length — modelled by the `sliceBoundsPanic` outcome. -/
def parseLengthPrefixedData (dv : List Nat → Option (Nat × Nat))
    (st : Stack) : VRes (List Nat) :=
  let r := parseVarint dv st
  match r.out with
  | .error e => ⟨r.stack, r.peak, .error e⟩
  | .ok (length, remaining) =>
    if length < 2 ^ 63 ∧ remaining.length < length then
      ⟨r.stack, r.peak, .error (.truncated length remaining.length)⟩
    else if remaining.length < length then
      ⟨r.stack, r.peak, .error .sliceBoundsPanic⟩
    else
      ⟨remaining.drop length :: r.stack, max r.peak (r.stack.length + 1),
        .ok (remaining.take length)⟩

/-- `parseBytes` (`parser.go:169`): extract a length-prefixed payload and
invoke `Bytes(fieldID, data)`. -/
def parseBytes (dv : List Nat → Option (Nat × Nat)) (fieldID : Nat)
    (st : Stack) : PRes :=
  let r := parseLengthPrefixedData dv st
  match r.out with
  | .error e => ⟨r.stack, r.peak, [], some e⟩
  | .ok data => ⟨r.stack, r.peak, [.bytes fieldID data], none⟩

mutual

/-- `Parse` (`parser.go:43`): validate the size bound, then the depth
bound, push the message view and drain the field loop (`parseFields`). -/
def Parse (dv : List Nat → Option (Nat × Nat)) (maxLength maxDepth : Nat) :
    Nat → List Nat → Stack → PRes
  | 0, _, st => ⟨st, st.length, [], some .outOfFuel⟩
  | fuel + 1, message, st =>
    if message.length > maxLength then
      ⟨st, st.length, [], some (.oversizedMessage message.length maxLength)⟩
    else if st.length ≥ maxDepth then
      ⟨st, st.length, [], some (.maxDepthExceeded maxDepth)⟩
    else
      parseFields dv maxLength maxDepth fuel (message :: st)

/-- The field loop of `Parse` (`parser.go:54`–`78`): while the top view is
non-empty decode a field prefix and dispatch on the wire type; when the
top view is exhausted pop it and return success. -/
def parseFields (dv : List Nat → Option (Nat × Nat))
    (maxLength maxDepth : Nat) : Nat → Stack → PRes
  | 0, st => ⟨st, st.length, [], some .outOfFuel⟩
  | fuel + 1, st =>
    match st with
    | [] => ⟨[], 0, [], some .stackUnderflow⟩
    | top :: rest =>
      if top.isEmpty then ⟨rest, rest.length + 1, [], none⟩
      else
        let r := parseFieldPrefix dv (top :: rest)
        match r.out with
        | .error e => ⟨r.stack, r.peak, [], some e⟩
        | .ok (fieldID, wireType) =>
          let r2 : PRes :=
            if wireType = 0 then parseUint64 dv fieldID r.stack
            else if wireType = 2 then
              parseMessage dv maxLength maxDepth fuel fieldID r.stack
            else if wireType = 3 then parseBytes dv fieldID r.stack
            else ⟨r.stack, r.stack.length, [],
              some (.unknownWireType wireType)⟩
          match r2.err with
          | some e => ⟨r2.stack, max r.peak r2.peak, r2.events, some e⟩
          | none =>
            let r3 := parseFields dv maxLength maxDepth fuel r2.stack
            ⟨r3.stack, max r.peak (max r2.peak r3.peak),
              r2.events ++ r3.events, r3.err⟩

/-- `parseMessage` (`parser.go:151`): invoke `BeginNested()`, extract the
length-prefixed nested body, recursively `Parse` it, and on success
invoke `EndNested(fieldID)`. -/
def parseMessage (dv : List Nat → Option (Nat × Nat))
    (maxLength maxDepth : Nat) : Nat → Nat → Stack → PRes
  | 0, _, st => ⟨st, st.length, [], some .outOfFuel⟩
  | fuel + 1, fieldID, st =>
    let r := parseLengthPrefixedData dv st
    match r.out with
    | .error e => ⟨r.stack, r.peak, [.beginNested], some e⟩
    | .ok nestedMessage =>
      let r2 := Parse dv maxLength maxDepth fuel nestedMessage r.stack
      match r2.err with
      | some e =>
        ⟨r2.stack, max r.peak r2.peak, .beginNested :: r2.events, some e⟩
      | none =>
        ⟨r2.stack, max r.peak r2.peak,
          .beginNested :: r2.events ++ [.endNested fieldID], none⟩

end

/-- `Finish` (`parser.go:82`): fail with `incompleteParse` while the
nesting stack is non-empty, otherwise return the builder's product
(abstracted to `Unit`; the product is the builder's fold of the events). -/
def Finish (st : Stack) : Except PError Unit :=
  if st.length ≠ 0 then .error (.incompleteParse st.length) else .ok ()

/-- `DefaultMaxLength` (`parser.go:12`). -/
def DefaultMaxLength : Nat := 1024

/-- `DefaultMaxDepth` (`parser.go:15`). -/
def DefaultMaxDepth : Nat := 8

/-- Modelled from the spec: the external varint codec `DecodeVarint`
(its source is not part of the parser file).  The spec describes it as a
canonical variable-length integer codec "similar in spirit to
protocol-buffer wire encoding": base-128 little-endian groups, high bit
of a byte set when more bytes follow, failing when the input is
exhausted before a terminating byte.  Returns the decoded value and the
number of bytes consumed. -/
def DecodeVarint : List Nat → Option (Nat × Nat)
  | [] => none
  | b :: bs =>
    if b < 128 then some (b, 1)
    else
      match DecodeVarint bs with
      | none => none
      | some (value, n) => some (value * 128 + (b - 128), n + 1)

/-- Modelled from the spec: the matching varint encoder, fuel-indexed so
that it is structurally recursive (`fuel = n` always suffices, see
`DecodeVarint_encodeVarint`). -/
def encodeVarintAux : Nat → Nat → List Nat
  | 0, n => [n]
  | fuel + 1, n =>
    if n < 128 then [n] else (128 + n % 128) :: encodeVarintAux fuel (n / 128)

/-- Modelled from the spec: encode an unsigned integer as a varint. -/
def encodeVarint (n : Nat) : List Nat := encodeVarintAux n n

/-- Well-formed message bodies of the wire format (spec §6), indexed by a
bound on the nesting depth below the body: a body is a concatenation of
fields, each a varint tag `(fieldID << 3) | wireType` followed by a
varint value (`wireType 0`), a varint length and that many bytes forming
a well-formed nested body (`wireType 2`), or a varint length and that
many raw bytes (`wireType 3`). -/
inductive WFMsg : Nat → List Nat → Prop where
  | nil (d : Nat) : WFMsg d []
  | fieldInt (d fieldID value : Nat) (rest : List Nat) :
      WFMsg d rest →
      WFMsg d (encodeVarint (8 * fieldID) ++ encodeVarint value ++ rest)
  | fieldNested (d fieldID : Nat) (m rest : List Nat) :
      WFMsg d m → WFMsg (d + 1) rest →
      WFMsg (d + 1) (encodeVarint (8 * fieldID + 2) ++
        encodeVarint m.length ++ m ++ rest)
  | fieldBytes (d fieldID : Nat) (b rest : List Nat) :
      WFMsg d rest →
      WFMsg d (encodeVarint (8 * fieldID + 3) ++
        encodeVarint b.length ++ b ++ rest)

/-- A nesting chain: `chainMsg d` is a message body whose only content is
a chain of `d` further nested messages (field id 2, wire type 2, tag
byte `0x12`), so parsing it opens `d + 1` message levels in total. -/
def chainMsg : Nat → List Nat
  | 0 => []
  | d + 1 =>
    encodeVarint 18 ++ encodeVarint (chainMsg d).length ++ chainMsg d

/-- Properly bracketed event traces: a concatenation of items, each a
scalar callback or a `beginNested`/`endNested` pair bracketing a
balanced inner trace. -/
inductive Balanced : List Event → Prop where
  | nil : Balanced []
  | uint64 (f v : Nat) (es : List Event) :
      Balanced es → Balanced (.uint64 f v :: es)
  | bytes (f : Nat) (d : List Nat) (es : List Event) :
      Balanced es → Balanced (.bytes f d :: es)
  | nested (f : Nat) (inner es : List Event) :
      Balanced inner → Balanced es →
      Balanced (.beginNested :: inner ++ .endNested f :: es)

example : DecodeVarint [0x07] = some (7, 1) := by decide
example : DecodeVarint [0x80] = none := by decide
example : DecodeVarint [172, 2] = some (300, 2) := by decide
example : encodeVarint 300 = [172, 2] := by decide
example : encodeVarint 0 = [0] := by decide

theorem encodeVarintAux_ne_nil (fuel n : Nat) : encodeVarintAux fuel n ≠ [] := by
  cases fuel with
  | zero => simp [encodeVarintAux]
  | succ fuel =>
    rw [encodeVarintAux]
    split <;> simp

theorem encodeVarint_length_pos (n : Nat) : 1 ≤ (encodeVarint n).length := by
  have h := encodeVarintAux_ne_nil n n
  rcases he : encodeVarintAux n n with _ | ⟨b, bs⟩
  · exact absurd he h
  · simp [encodeVarint, he]

theorem DecodeVarint_encodeVarintAux (fuel : Nat) :
    ∀ (n : Nat) (rest : List Nat), n ≤ fuel + 127 →
      DecodeVarint (encodeVarintAux fuel n ++ rest) =
        some (n, (encodeVarintAux fuel n).length) := by
  induction fuel with
  | zero =>
    intro n rest h
    simp [encodeVarintAux, DecodeVarint, Nat.lt_succ_of_le h]
  | succ fuel ih =>
    intro n rest h
    by_cases h128 : n < 128
    · simp [encodeVarintAux, h128, DecodeVarint]
    · have hdiv : n / 128 ≤ fuel + 127 := by omega
      rw [encodeVarintAux, if_neg h128]
      have hb : ¬ (128 + n % 128 < 128) := by omega
      simp only [List.cons_append, DecodeVarint, hb, if_false,
        List.append_eq]
      rw [ih (n / 128) rest hdiv]
      simp
      omega

/-- The codec round-trip: decoding an encoded varint yields the value
back and consumes exactly the encoding's bytes. -/
theorem DecodeVarint_encodeVarint (n : Nat) (rest : List Nat) :
    DecodeVarint (encodeVarint n ++ rest) =
      some (n, (encodeVarint n).length) :=
  DecodeVarint_encodeVarintAux n n rest (by omega)

theorem parseVarint_encode (k : Nat) (t : List Nat) (stk : Stack) :
    parseVarint DecodeVarint ((encodeVarint k ++ t) :: stk) =
      ⟨stk, stk.length + 1, .ok (k, t)⟩ := by
  simp [parseVarint, DecodeVarint_encodeVarint, List.drop_left]

theorem parseFieldPrefix_encode (k : Nat) (t : List Nat) (stk : Stack) :
    parseFieldPrefix DecodeVarint ((encodeVarint k ++ t) :: stk) =
      ⟨t :: stk, stk.length + 1, .ok (k >>> 3, k &&& 0x7)⟩ := by
  simp [parseFieldPrefix, parseVarint_encode]

theorem parseUint64_encode (fieldID v : Nat) (t : List Nat) (stk : Stack) :
    parseUint64 DecodeVarint fieldID ((encodeVarint v ++ t) :: stk) =
      ⟨t :: stk, stk.length + 1, [.uint64 fieldID v], none⟩ := by
  simp [parseUint64, parseVarint_encode]

theorem parseLengthPrefixedData_encode (m t : List Nat) (stk : Stack) :
    parseLengthPrefixedData DecodeVarint
        ((encodeVarint m.length ++ (m ++ t)) :: stk) =
      ⟨t :: stk, stk.length + 1, .ok m⟩ := by
  have hnot : ¬ ((m ++ t).length < m.length) := by simp
  simp [parseLengthPrefixedData, parseVarint_encode, hnot,
    List.take_left m t, List.drop_left m t]

theorem shiftRight_three_tag (f w : Nat) (hw : w < 8) :
    (8 * f + w) >>> 3 = f := by
  rw [Nat.shiftRight_eq_div_pow]
  omega

theorem and_seven_tag (f w : Nat) (hw : w < 8) : (8 * f + w) &&& 7 = w := by
  have h := Nat.and_pow_two_sub_one_eq_mod (8 * f + w) 3
  norm_num at h
  omega

theorem shiftRight_three_tag0 (f : Nat) : (8 * f) >>> 3 = f := by
  rw [Nat.shiftRight_eq_div_pow]
  omega

theorem and_seven_tag0 (f : Nat) : (8 * f) &&& 7 = 0 := by
  have h := Nat.and_pow_two_sub_one_eq_mod (8 * f) 3
  norm_num at h
  omega

theorem encodeVarint_ne_nil (n : Nat) : encodeVarint n ≠ [] :=
  encodeVarintAux_ne_nil n n

theorem parseFields_stepNil (dv : List Nat → Option (Nat × Nat))
    (mL mD f : Nat) (rest : Stack) :
    parseFields dv mL mD (f + 1) ([] :: rest) =
      ⟨rest, rest.length + 1, [], none⟩ := by
  simp [parseFields]

theorem parseFields_stepInt (mL mD f fieldID value : Nat) (t : List Nat)
    (rest : Stack) :
    parseFields DecodeVarint mL mD (f + 1)
        ((encodeVarint (8 * fieldID) ++ (encodeVarint value ++ t)) :: rest) =
      ⟨(parseFields DecodeVarint mL mD f (t :: rest)).stack,
        max (rest.length + 1) (max (rest.length + 1)
          (parseFields DecodeVarint mL mD f (t :: rest)).peak),
        .uint64 fieldID value ::
          (parseFields DecodeVarint mL mD f (t :: rest)).events,
        (parseFields DecodeVarint mL mD f (t :: rest)).err⟩ := by
  have hne : (encodeVarint (8 * fieldID) ++ (encodeVarint value ++ t)) ≠ [] := by
    simp [encodeVarint_ne_nil]
  rw [parseFields]
  simp [hne, parseFieldPrefix_encode, shiftRight_three_tag0, and_seven_tag0,
    parseUint64_encode]

theorem parseFields_stepBytes (mL mD f fieldID : Nat) (b t : List Nat)
    (rest : Stack) :
    parseFields DecodeVarint mL mD (f + 1)
        ((encodeVarint (8 * fieldID + 3) ++
          (encodeVarint b.length ++ (b ++ t))) :: rest) =
      ⟨(parseFields DecodeVarint mL mD f (t :: rest)).stack,
        max (rest.length + 1) (max (rest.length + 1)
          (parseFields DecodeVarint mL mD f (t :: rest)).peak),
        .bytes fieldID b ::
          (parseFields DecodeVarint mL mD f (t :: rest)).events,
        (parseFields DecodeVarint mL mD f (t :: rest)).err⟩ := by
  have hne : (encodeVarint (8 * fieldID + 3) ++
      (encodeVarint b.length ++ (b ++ t))) ≠ [] := by
    simp [encodeVarint_ne_nil]
  have hs : (8 * fieldID + 3) >>> 3 = fieldID :=
    shiftRight_three_tag fieldID 3 (by omega)
  have ha : (8 * fieldID + 3) &&& 7 = 3 := and_seven_tag fieldID 3 (by omega)
  rw [parseFields]
  simp [hne, parseFieldPrefix_encode, hs, ha, parseBytes,
    parseLengthPrefixedData_encode]

theorem parseFields_stepNestedOk (mL mD f fieldID : Nat) (m t : List Nat)
    (rest : Stack) (pkP : Nat) (evsP : List Event)
    (hm : ¬ m.length > mL) (hd : ¬ (t :: rest).length ≥ mD)
    (hP : parseFields DecodeVarint mL mD f (m :: t :: rest) =
      ⟨t :: rest, pkP, evsP, none⟩) :
    parseFields DecodeVarint mL mD (f + 3)
        ((encodeVarint (8 * fieldID + 2) ++
          (encodeVarint m.length ++ (m ++ t))) :: rest) =
      ⟨(parseFields DecodeVarint mL mD (f + 2) (t :: rest)).stack,
        max (rest.length + 1) (max (max (rest.length + 1) pkP)
          (parseFields DecodeVarint mL mD (f + 2) (t :: rest)).peak),
        .beginNested :: (evsP ++ .endNested fieldID ::
          (parseFields DecodeVarint mL mD (f + 2) (t :: rest)).events),
        (parseFields DecodeVarint mL mD (f + 2) (t :: rest)).err⟩ := by
  have hne : (encodeVarint (8 * fieldID + 2) ++
      (encodeVarint m.length ++ (m ++ t))) ≠ [] := by
    simp [encodeVarint_ne_nil]
  have hs : (8 * fieldID + 2) >>> 3 = fieldID :=
    shiftRight_three_tag fieldID 2 (by omega)
  have ha : (8 * fieldID + 2) &&& 7 = 2 := and_seven_tag fieldID 2 (by omega)
  rw [parseFields]
  simp only [hne, ne_eq, not_false_iff, List.isEmpty_eq_true,
    parseFieldPrefix_encode, hs, ha]
  rw [parseMessage]
  simp only [parseLengthPrefixedData_encode]
  rw [Parse]
  have hd2 : ¬ mD ≤ rest.length + 1 := by simpa using hd
  simp [hm, hd2, hP]

theorem parseFields_stepNestedErr (mL mD f fieldID : Nat) (m t : List Nat)
    (rest stP : Stack) (pkP : Nat) (evsP : List Event) (e : PError)
    (hm : ¬ m.length > mL) (hd : ¬ (t :: rest).length ≥ mD)
    (hP : parseFields DecodeVarint mL mD f (m :: t :: rest) =
      ⟨stP, pkP, evsP, some e⟩) :
    parseFields DecodeVarint mL mD (f + 3)
        ((encodeVarint (8 * fieldID + 2) ++
          (encodeVarint m.length ++ (m ++ t))) :: rest) =
      ⟨stP, max (rest.length + 1) (max (rest.length + 1) pkP),
        .beginNested :: evsP, some e⟩ := by
  have hne : (encodeVarint (8 * fieldID + 2) ++
      (encodeVarint m.length ++ (m ++ t))) ≠ [] := by
    simp [encodeVarint_ne_nil]
  have hs : (8 * fieldID + 2) >>> 3 = fieldID :=
    shiftRight_three_tag fieldID 2 (by omega)
  have ha : (8 * fieldID + 2) &&& 7 = 2 := and_seven_tag fieldID 2 (by omega)
  rw [parseFields]
  simp only [hne, ne_eq, not_false_iff, List.isEmpty_eq_true,
    parseFieldPrefix_encode, hs, ha]
  rw [parseMessage]
  simp only [parseLengthPrefixedData_encode]
  rw [Parse]
  have hd2 : ¬ mD ≤ rest.length + 1 := by simpa using hd
  simp [hm, hd2, hP]

/-- C1 counterexample: the codec can produce `L = 2^63` (ten base-128
bytes); with `R = 0 < L` the call does not fail with `Truncated` — Go's
`int(length)` conversion wraps negative, the length check is skipped and
the slice operation `remaining[:length]` panics instead. -/
theorem truncated_check_wraps_counterexample :
    parseLengthPrefixedData DecodeVarint
        [[128, 128, 128, 128, 128, 128, 128, 128, 128, 1]] =
      ⟨[], 1, .error .sliceBoundsPanic⟩ ∧
    parseLengthPrefixedData DecodeVarint
        [[128, 128, 128, 128, 128, 128, 128, 128, 128, 1]] ≠
      ⟨[], 1, .error (.truncated (2 ^ 63) 0)⟩ := by
  decide

/-- C1 (amended): with decoded length `L` and `R` bytes remaining after
the length varint: when `L < 2^63` and `R < L` the extractor fails with
`truncated L R`; when `2^63 ≤ L` and `R < L` Go's `int(length)`
conversion wraps negative, the truncation check is skipped and the call
panics at `remaining[:length]` instead of reporting `Truncated`; when
`L ≤ R` it returns the first `L` remaining bytes as the payload and
pushes the rest back as the new top-of-stack view.  Universal in the
codec `dv`, so the `Truncated` guarantee holds exactly for the
producible lengths below `2^63`. -/
theorem parseLengthPrefixedData_spec
    (dv : List Nat → Option (Nat × Nat)) (top : List Nat) (rest : Stack)
    (L n : Nat) (hdv : dv top = some (L, n)) :
    (L < 2 ^ 63 → (top.drop n).length < L →
      parseLengthPrefixedData dv (top :: rest) =
        ⟨rest, rest.length + 1, .error (.truncated L (top.drop n).length)⟩) ∧
    (2 ^ 63 ≤ L → (top.drop n).length < L →
      parseLengthPrefixedData dv (top :: rest) =
        ⟨rest, rest.length + 1, .error .sliceBoundsPanic⟩) ∧
    (L ≤ (top.drop n).length →
      parseLengthPrefixedData dv (top :: rest) =
        ⟨(top.drop n).drop L :: rest, rest.length + 1,
          .ok ((top.drop n).take L)⟩) := by
  refine ⟨?_, ?_, ?_⟩
  · intro h63 h
    have h2 : top.length - n < L := by simpa using h
    simp [parseLengthPrefixedData, parseVarint, hdv, h63, h2]
    omega
  · intro h63 h
    have h2 : top.length - n < L := by simpa using h
    simp [parseLengthPrefixedData, parseVarint, hdv,
      Nat.not_lt.mpr h63, h2]
    omega
  · intro h
    have h2 : ¬ top.length - n < L := by simpa using Nat.not_lt.mpr h
    simp [parseLengthPrefixedData, parseVarint, hdv, h2]

/-- Witness for C1: a concrete successful extraction. -/
theorem parseLengthPrefixedData_spec_witness :
    parseLengthPrefixedData DecodeVarint [[2, 9, 9, 9]] =
      ⟨[[9]], 1, .ok [9, 9]⟩ :=
  (parseLengthPrefixedData_spec DecodeVarint [2, 9, 9, 9] [] 2 1
    (by decide)).2.2 (by decide)

/-- C5: the field-prefix decoder decodes one varint `value` and returns
`fieldID = value >> 3`, `wireType = value & 0x7` with the unconsumed
remainder pushed as the new top view; it fails with `varintDecodeError`
exactly when the codec fails. -/
theorem parseFieldPrefix_spec
    (dv : List Nat → Option (Nat × Nat)) (top : List Nat) (rest : Stack) :
    (∀ value n, dv top = some (value, n) →
      parseFieldPrefix dv (top :: rest) =
        ⟨top.drop n :: rest, rest.length + 1,
          .ok (value >>> 3, value &&& 0x7)⟩) ∧
    (dv top = none →
      parseFieldPrefix dv (top :: rest) =
        ⟨rest, rest.length + 1, .error .varintDecodeError⟩) := by
  constructor
  · intro value n hdv
    simp [parseFieldPrefix, parseVarint, hdv]
  · intro hdv
    simp [parseFieldPrefix, parseVarint, hdv]

/-- Witness for C5: both branches at concrete inputs. -/
theorem parseFieldPrefix_spec_witness :
    parseFieldPrefix DecodeVarint [[18, 9]] = ⟨[[9]], 1, .ok (2, 2)⟩ ∧
    parseFieldPrefix DecodeVarint [[128]] =
      ⟨[], 1, .error .varintDecodeError⟩ :=
  ⟨(parseFieldPrefix_spec DecodeVarint [18, 9] []).1 18 1 (by decide),
   (parseFieldPrefix_spec DecodeVarint [128] []).2 (by decide)⟩

/-- C8: `Finish` fails with `incompleteParse` whenever the nesting stack
is non-empty, and succeeds (returning the builder's product) whenever the
stack is empty. -/
theorem Finish_spec (st : Stack) :
    (st ≠ [] → Finish st = .error (.incompleteParse st.length)) ∧
    (st = [] → Finish st = .ok ()) := by
  constructor
  · intro h
    cases st with
    | nil => exact absurd rfl h
    | cons a l => simp [Finish]
  · intro h
    subst h
    simp [Finish]

/-- Witness for C8: both branches at concrete stacks. -/
theorem Finish_spec_witness :
    Finish [[7]] = .error (.incompleteParse 1) ∧ Finish [] = .ok () :=
  ⟨(Finish_spec [[7]]).1 (by decide), (Finish_spec []).2 rfl⟩

/-- C9: a field whose decoded tag has low three bits in `{1, 4, 5, 6, 7}`
makes the parse fail with `unknownWireType` reporting that value, with
no builder callback invoked for the field (the event list is empty) —
both at an arbitrary iteration of the field loop (any stack) and through
the `Parse` entry point. -/
theorem unknownWireType_spec
    (dv : List Nat → Option (Nat × Nat)) (maxLength maxDepth fuel : Nat)
    (message : List Nat) (st : Stack) (value n : Nat)
    (hw : value &&& 0x7 = 1 ∨ value &&& 0x7 = 4 ∨ value &&& 0x7 = 5 ∨
      value &&& 0x7 = 6 ∨ value &&& 0x7 = 7) :
    (∀ (top : List Nat) (rest : Stack), top ≠ [] →
      dv top = some (value, n) →
      parseFields dv maxLength maxDepth (fuel + 1) (top :: rest) =
        ⟨top.drop n :: rest, rest.length + 1, [],
          some (.unknownWireType (value &&& 0x7))⟩) ∧
    (message ≠ [] → dv message = some (value, n) →
      message.length ≤ maxLength → st.length < maxDepth →
      Parse dv maxLength maxDepth (fuel + 2) message st =
        ⟨message.drop n :: st, st.length + 1, [],
          some (.unknownWireType (value &&& 0x7))⟩) := by
  have key : ∀ (top : List Nat) (rest : Stack), top ≠ [] →
      dv top = some (value, n) →
      parseFields dv maxLength maxDepth (fuel + 1) (top :: rest) =
        ⟨top.drop n :: rest, rest.length + 1, [],
          some (.unknownWireType (value &&& 0x7))⟩ := by
    intro top rest hne hdv
    obtain ⟨b, bs, rfl⟩ := List.exists_cons_of_ne_nil hne
    rcases hw with h | h | h | h | h <;>
      simp [parseFields, parseFieldPrefix, parseVarint, hdv, h]
  refine ⟨key, ?_⟩
  intro hne hdv hlen hdep
  rw [Parse, if_neg (by omega), if_neg (by omega)]
  exact key message st hne hdv

/-- Witness for C9: tag byte `12` has wire type `4`. -/
theorem unknownWireType_spec_witness :
    Parse DecodeVarint 1024 8 10 [12] [] =
      ⟨[[]], 1, [], some (.unknownWireType 4)⟩ :=
  (unknownWireType_spec DecodeVarint 1024 8 8 [12] [] 12 1
    (Or.inr (Or.inl (by decide)))).2 (by decide) (by decide) (by decide)
    (by decide)

/-- C4: the concrete scenario — field `(id=2, wireType=2)` wrapping a
nested message holding field `(id=1, wireType=0, value=7)` — invokes
exactly `BeginNested()`, `Uint64(1, 7)`, `EndNested(2)` in that order,
and a subsequent `Finish` succeeds. -/
theorem nested_scenario_spec :
    Parse DecodeVarint DefaultMaxLength DefaultMaxDepth 20
        [0x12, 0x02, 0x08, 0x07] [] =
      ⟨[], 2, [.beginNested, .uint64 1 7, .endNested 2], none⟩ ∧
    Finish (Parse DecodeVarint DefaultMaxLength DefaultMaxDepth 20
        [0x12, 0x02, 0x08, 0x07] []).stack = .ok () := by
  decide

/-- C10: on the single continuation byte `0x80` the codec rejects the
very first field prefix; `parseVarint` had already popped the only stack
entry, so `Parse` returns an error while the stack is empty and a
subsequent `Finish` succeeds instead of reporting `incompleteParse`. -/
theorem error_then_finish_ok :
    (Parse DecodeVarint DefaultMaxLength DefaultMaxDepth 10 [0x80] []).err =
      some .varintDecodeError ∧
    (Parse DecodeVarint DefaultMaxLength DefaultMaxDepth 10 [0x80] []).stack =
      [] ∧
    Finish (Parse DecodeVarint DefaultMaxLength DefaultMaxDepth 10
        [0x80] []).stack = .ok () := by
  decide

theorem parseFields_stepNestedPErr (mL mD f fieldID : Nat) (m t : List Nat)
    (rest stP : Stack) (pkP : Nat) (evsP : List Event) (e : PError)
    (hP : Parse DecodeVarint mL mD (f + 1) m (t :: rest) =
      ⟨stP, pkP, evsP, some e⟩) :
    parseFields DecodeVarint mL mD (f + 3)
        ((encodeVarint (8 * fieldID + 2) ++
          (encodeVarint m.length ++ (m ++ t))) :: rest) =
      ⟨stP, max (rest.length + 1) (max (rest.length + 1) pkP),
        .beginNested :: evsP, some e⟩ := by
  have hne : (encodeVarint (8 * fieldID + 2) ++
      (encodeVarint m.length ++ (m ++ t))) ≠ [] := by
    simp [encodeVarint_ne_nil]
  have hs : (8 * fieldID + 2) >>> 3 = fieldID :=
    shiftRight_three_tag fieldID 2 (by omega)
  have ha : (8 * fieldID + 2) &&& 7 = 2 := and_seven_tag fieldID 2 (by omega)
  rw [parseFields]
  simp only [hne, ne_eq, not_false_iff, List.isEmpty_eq_true,
    parseFieldPrefix_encode, hs, ha]
  rw [parseMessage]
  simp only [parseLengthPrefixedData_encode]
  simp [hP]

/-- Completeness of the field loop on well-formed bodies: with the
concrete codec, enough fuel, the body within the size bound and the
nesting within the depth bound, the loop consumes the whole top view,
pops it and reports no error. -/
theorem parseFields_wf (maxLength maxDepth : Nat) {d : Nat} {t : List Nat}
    (hwf : WFMsg d t) :
    ∀ (rest : Stack) (fuel : Nat), t.length ≤ maxLength →
      rest.length + 1 + d ≤ maxDepth → 4 * t.length + 2 ≤ fuel →
      (parseFields DecodeVarint maxLength maxDepth fuel (t :: rest)).stack =
          rest ∧
      (parseFields DecodeVarint maxLength maxDepth fuel (t :: rest)).err =
          none := by
  induction hwf with
  | nil d =>
    intro rest fuel _ _ hfuel
    obtain ⟨f, rfl⟩ : ∃ f, fuel = f + 1 := ⟨fuel - 1, by omega⟩
    simp [parseFields_stepNil]
  | fieldInt d fieldID value t' hrest ih =>
    intro rest fuel hlen hdep hfuel
    have h1 := encodeVarint_length_pos (8 * fieldID)
    have h2 := encodeVarint_length_pos value
    simp only [List.length_append] at hlen hfuel
    obtain ⟨f, rfl⟩ : ∃ f, fuel = f + 1 := ⟨fuel - 1, by omega⟩
    have hih := ih rest f (by omega) hdep (by omega)
    rw [List.append_assoc, parseFields_stepInt]
    simp [hih.1, hih.2]
  | fieldNested d fieldID m t' hm hrest ihm ihrest =>
    intro rest fuel hlen hdep hfuel
    have h1 := encodeVarint_length_pos (8 * fieldID + 2)
    have h2 := encodeVarint_length_pos m.length
    simp only [List.length_append] at hlen hfuel
    obtain ⟨f, rfl⟩ : ∃ f, fuel = f + 3 := ⟨fuel - 3, by omega⟩
    have hihm := ihm (t' :: rest) f (by omega)
      (by simp only [List.length_cons]; omega) (by omega)
    rcases hE : parseFields DecodeVarint maxLength maxDepth f
        (m :: t' :: rest) with ⟨s, p, e, er⟩
    rw [hE] at hihm
    simp only at hihm
    obtain ⟨rfl, rfl⟩ := hihm
    have hmLen : ¬ m.length > maxLength := by omega
    have hdLen : ¬ (t' :: rest).length ≥ maxDepth := by
      simp only [List.length_cons]
      omega
    have hstep := parseFields_stepNestedOk maxLength maxDepth f fieldID m t'
      rest p e hmLen hdLen hE
    rw [List.append_assoc, List.append_assoc, hstep]
    have hihrest := ihrest rest (f + 2) (by omega) hdep (by omega)
    simp [hihrest.1, hihrest.2]
  | fieldBytes d fieldID b t' hrest ih =>
    intro rest fuel hlen hdep hfuel
    have h1 := encodeVarint_length_pos (8 * fieldID + 3)
    have h2 := encodeVarint_length_pos b.length
    simp only [List.length_append] at hlen hfuel
    obtain ⟨f, rfl⟩ : ∃ f, fuel = f + 1 := ⟨fuel - 1, by omega⟩
    have hih := ih rest f (by omega) hdep (by omega)
    rw [List.append_assoc, List.append_assoc, parseFields_stepBytes]
    simp [hih.1, hih.2]

/-- Parser completeness: a well-formed body within the size bound whose
nesting fits under the depth bound parses without error and restores the
stack it was called with. -/
theorem Parse_wf (maxLength maxDepth : Nat) {d : Nat} {msg : List Nat}
    (hwf : WFMsg d msg) (st : Stack) (fuel : Nat)
    (hlen : msg.length ≤ maxLength) (hdep : st.length + d < maxDepth)
    (hfuel : 4 * msg.length + 3 ≤ fuel) :
    (Parse DecodeVarint maxLength maxDepth fuel msg st).stack = st ∧
    (Parse DecodeVarint maxLength maxDepth fuel msg st).err = none := by
  obtain ⟨f, rfl⟩ : ∃ f, fuel = f + 1 := ⟨fuel - 1, by omega⟩
  have h := parseFields_wf maxLength maxDepth hwf st f hlen (by omega)
    (by omega)
  rw [Parse]
  have h1 : ¬ msg.length > maxLength := by omega
  have h2 : ¬ st.length ≥ maxDepth := by omega
  simp [h1, h2, h.1, h.2]

theorem chainMsg_succ_shape (d : Nat) :
    chainMsg (d + 1) =
      encodeVarint (8 * 2 + 2) ++
        (encodeVarint (chainMsg d).length ++ (chainMsg d ++ [])) := by
  simp [chainMsg, List.append_assoc]

theorem WFMsg_chain : ∀ d, WFMsg d (chainMsg d)
  | 0 => WFMsg.nil 0
  | d + 1 => by
    have h := WFMsg.fieldNested d 2 (chainMsg d) [] (WFMsg_chain d)
      (WFMsg.nil (d + 1))
    have e : encodeVarint (8 * 2 + 2) ++ encodeVarint (chainMsg d).length ++
        chainMsg d ++ [] = chainMsg (d + 1) := by
      simp [chainMsg]
    rwa [e] at h

theorem chainMsg_length_le (d : Nat) :
    (chainMsg d).length ≤ (chainMsg (d + 1)).length := by
  simp [chainMsg]
  omega

/-- A chain that still has `k` nested levels to open, started on a stack
already holding enough levels that `maxDepth` runs out, fails with
`maxDepthExceeded`. -/
theorem chain_depth_fail (maxLength maxDepth : Nat) :
    ∀ (k : Nat) (st : Stack) (fuel : Nat),
      maxDepth ≤ st.length + k → (chainMsg k).length ≤ maxLength →
      3 * k + 2 ≤ fuel →
      (Parse DecodeVarint maxLength maxDepth fuel (chainMsg k) st).err =
        some (.maxDepthExceeded maxDepth) := by
  intro k
  induction k with
  | zero =>
    intro st fuel hdep hlen hfuel
    obtain ⟨f, rfl⟩ : ∃ f, fuel = f + 1 := ⟨fuel - 1, by omega⟩
    rw [Parse]
    have h1 : ¬ (chainMsg 0).length > maxLength := by omega
    have h2 : maxDepth ≤ st.length := by omega
    simp [h1, h2]
  | succ k ih =>
    intro st fuel hdep hlen hfuel
    obtain ⟨f, rfl⟩ : ∃ f, fuel = f + 1 := ⟨fuel - 1, by omega⟩
    rw [Parse]
    have h1 : ¬ (chainMsg (k + 1)).length > maxLength := by omega
    by_cases h2 : st.length ≥ maxDepth
    · simp [h1, h2]
    · obtain ⟨f3, rfl⟩ : ∃ f3, f = f3 + 3 := ⟨f - 3, by omega⟩
      have hlen2 : (chainMsg k).length ≤ maxLength :=
        le_trans (chainMsg_length_le k) hlen
      have hinner := ih ([] :: st) (f3 + 1)
        (by simp only [List.length_cons]; omega) hlen2 (by omega)
      rcases hE : Parse DecodeVarint maxLength maxDepth (f3 + 1) (chainMsg k)
        ([] :: st) with ⟨s, p, ev, er⟩
      rw [hE] at hinner
      simp only at hinner
      subst hinner
      have hstep := parseFields_stepNestedPErr maxLength maxDepth f3 2
        (chainMsg k) [] st s p ev (.maxDepthExceeded maxDepth) hE
      simp [h1, h2]
      rw [chainMsg_succ_shape, hstep]

/-- C2: with bound `maxDepth = D + 1`, a nesting chain of exactly
`maxDepth` message levels (within the size bound) parses successfully; a
chain of `maxDepth + 1` levels fails with `maxDepthExceeded`; and the
depth check happens before the push: when it fires, the stack is
returned unchanged. -/
theorem maxDepth_boundary_spec (D maxLength fuel : Nat) :
    ((chainMsg D).length ≤ maxLength → 4 * (chainMsg D).length + 3 ≤ fuel →
      (Parse DecodeVarint maxLength (D + 1) fuel (chainMsg D) []).stack =
          [] ∧
      (Parse DecodeVarint maxLength (D + 1) fuel (chainMsg D) []).err =
          none) ∧
    ((chainMsg (D + 1)).length ≤ maxLength → 3 * (D + 1) + 2 ≤ fuel →
      (Parse DecodeVarint maxLength (D + 1) fuel (chainMsg (D + 1)) []).err =
        some (.maxDepthExceeded (D + 1))) ∧
    (∀ (dv : List Nat → Option (Nat × Nat)) (msg : List Nat) (st : Stack)
        (f : Nat), msg.length ≤ maxLength → D + 1 ≤ st.length →
      Parse dv maxLength (D + 1) (f + 1) msg st =
        ⟨st, st.length, [], some (.maxDepthExceeded (D + 1))⟩) := by
  refine ⟨?_, ?_, ?_⟩
  · intro hlen hfuel
    exact Parse_wf maxLength (D + 1) (WFMsg_chain D) [] fuel hlen
      (by simp) hfuel
  · intro hlen hfuel
    exact chain_depth_fail maxLength (D + 1) (D + 1) [] fuel (by simp) hlen
      hfuel
  · intro dv msg st f hlen hdep
    rw [Parse]
    have h1 : ¬ msg.length > maxLength := by omega
    simp [h1, hdep]

/-- Witness for C2: bound 1, a one-level chain succeeds and a two-level
chain is rejected. -/
theorem maxDepth_boundary_spec_witness :
    (Parse DecodeVarint 1024 1 5 (chainMsg 0) []).err = none ∧
    (Parse DecodeVarint 1024 1 5 (chainMsg 1) []).err =
      some (.maxDepthExceeded 1) :=
  ⟨((maxDepth_boundary_spec 0 1024 5).1 (by decide) (by decide)).2,
   (maxDepth_boundary_spec 0 1024 5).2.1 (by decide) (by decide)⟩

/-- C3: a well-formed message body of exactly `maxLength` bytes (whose
nesting fits the depth bound) parses successfully; any body of
`maxLength + 1` bytes is rejected with `oversizedMessage`; and the size
check compares each message's own length against `maxLength` at every
nesting context (any stack), not a shrinking budget. -/
theorem maxLength_boundary_spec (maxLength maxDepth d fuel : Nat)
    (msg : List Nat) :
    (WFMsg d msg → d < maxDepth → msg.length = maxLength →
      4 * maxLength + 3 ≤ fuel →
      (Parse DecodeVarint maxLength maxDepth fuel msg []).stack = [] ∧
      (Parse DecodeVarint maxLength maxDepth fuel msg []).err = none) ∧
    (∀ (dv : List Nat → Option (Nat × Nat)) (msg2 : List Nat) (st : Stack)
        (f : Nat), msg2.length = maxLength + 1 →
      Parse dv maxLength maxDepth (f + 1) msg2 st =
        ⟨st, st.length, [],
          some (.oversizedMessage (maxLength + 1) maxLength)⟩) ∧
    (∀ (dv : List Nat → Option (Nat × Nat)) (msg3 : List Nat) (st : Stack)
        (f : Nat), maxLength < msg3.length →
      (Parse dv maxLength maxDepth (f + 1) msg3 st).err =
        some (.oversizedMessage msg3.length maxLength)) := by
  refine ⟨?_, ?_, ?_⟩
  · intro hwf hd hlen hfuel
    exact Parse_wf maxLength maxDepth hwf [] fuel (by omega)
      (by simpa using hd) (by omega)
  · intro dv msg2 st f hlen
    rw [Parse]
    simp [hlen]
  · intro dv msg3 st f hlen
    rw [Parse]
    simp [hlen]

/-- Witness for C3: with `maxLength = 0` the empty body parses and a
one-byte body is rejected as oversized. -/
theorem maxLength_boundary_spec_witness :
    (Parse DecodeVarint 0 1 3 [] []).err = none ∧
    Parse DecodeVarint 0 1 1 [7] [] =
      ⟨[], 0, [], some (.oversizedMessage 1 0)⟩ :=
  ⟨((maxLength_boundary_spec 0 1 0 3 []).1 (WFMsg.nil 0) (by decide) rfl
      (by decide)).2,
   (maxLength_boundary_spec 0 1 0 0 []).2.1 DecodeVarint [7] [] 0 rfl⟩

theorem parseVarint_bound (dv : List Nat → Option (Nat × Nat)) (st : Stack) :
    (parseVarint dv st).peak ≤ st.length ∧
    (parseVarint dv st).stack.length ≤ st.length := by
  rcases st with _ | ⟨slice, rest⟩
  · simp [parseVarint]
  · rcases hv : dv slice with _ | ⟨value, n⟩ <;> simp [parseVarint, hv]

theorem parseFieldPrefix_bound (dv : List Nat → Option (Nat × Nat))
    (st : Stack) :
    (parseFieldPrefix dv st).peak ≤ st.length ∧
    (parseFieldPrefix dv st).stack.length ≤ st.length := by
  rcases st with _ | ⟨slice, rest⟩
  · simp [parseFieldPrefix, parseVarint]
  · rcases hv : dv slice with _ | ⟨value, n⟩ <;>
      simp [parseFieldPrefix, parseVarint, hv]

theorem parseUint64_bound (dv : List Nat → Option (Nat × Nat))
    (fieldID : Nat) (st : Stack) :
    (parseUint64 dv fieldID st).peak ≤ st.length ∧
    (parseUint64 dv fieldID st).stack.length ≤ st.length := by
  rcases st with _ | ⟨slice, rest⟩
  · simp [parseUint64, parseVarint]
  · rcases hv : dv slice with _ | ⟨value, n⟩ <;>
      simp [parseUint64, parseVarint, hv]

theorem parseLengthPrefixedData_bound (dv : List Nat → Option (Nat × Nat))
    (st : Stack) :
    (parseLengthPrefixedData dv st).peak ≤ st.length ∧
    (parseLengthPrefixedData dv st).stack.length ≤ st.length := by
  rcases st with _ | ⟨slice, rest⟩
  · simp [parseLengthPrefixedData, parseVarint]
  · rcases hv : dv slice with _ | ⟨L, n⟩
    · simp [parseLengthPrefixedData, parseVarint, hv]
    · simp only [parseLengthPrefixedData, parseVarint, hv]
      split
      · simp
      · split <;> simp

theorem parseBytes_bound (dv : List Nat → Option (Nat × Nat))
    (fieldID : Nat) (st : Stack) :
    (parseBytes dv fieldID st).peak ≤ st.length ∧
    (parseBytes dv fieldID st).stack.length ≤ st.length := by
  have h := parseLengthPrefixedData_bound dv st
  unfold parseBytes
  rcases ho : (parseLengthPrefixedData dv st).out with e | data <;>
    simp only [ho] <;> exact ⟨h.1, h.2⟩

/-- Simultaneous invariant: starting from a stack within the depth bound,
every function of the driver keeps the ghost peak stack length — hence
the stack length at every intermediate point — within `maxDepth`, and
leaves a stack within the bound. -/
theorem peak_aux (dv : List Nat → Option (Nat × Nat)) (mL mD : Nat)
    (fuel : Nat) :
    (∀ msg st, st.length ≤ mD →
      (Parse dv mL mD fuel msg st).peak ≤ mD ∧
      (Parse dv mL mD fuel msg st).stack.length ≤ mD) ∧
    (∀ st : Stack, st.length ≤ mD →
      (parseFields dv mL mD fuel st).peak ≤ mD ∧
      (parseFields dv mL mD fuel st).stack.length ≤ mD) ∧
    (∀ fieldID st, st.length ≤ mD →
      (parseMessage dv mL mD fuel fieldID st).peak ≤ mD ∧
      (parseMessage dv mL mD fuel fieldID st).stack.length ≤ mD) := by
  induction fuel with
  | zero =>
    refine ⟨?_, ?_, ?_⟩
    · intro msg st hst
      exact ⟨hst, hst⟩
    · intro st hst
      exact ⟨hst, hst⟩
    · intro fieldID st hst
      exact ⟨hst, hst⟩
  | succ fuel ih =>
    obtain ⟨ihP, ihF, ihM⟩ := ih
    refine ⟨?_, ?_, ?_⟩
    · intro msg st hst
      rw [Parse]
      by_cases h1 : msg.length > mL
      · rw [if_pos h1]
        exact ⟨hst, hst⟩
      · rw [if_neg h1]
        by_cases h2 : st.length ≥ mD
        · rw [if_pos h2]
          exact ⟨hst, hst⟩
        · rw [if_neg h2]
          exact ihF (msg :: st) (by simp only [List.length_cons]; omega)
    · intro st hst
      rcases st with _ | ⟨top, rest⟩
      · simp [parseFields]
      · rw [parseFields]
        simp only [List.length_cons] at hst
        by_cases hemp : top.isEmpty = true
        · rw [if_pos hemp]
          exact ⟨hst, Nat.le_of_succ_le hst⟩
        · rw [if_neg hemp]
          have hr := parseFieldPrefix_bound dv (top :: rest)
          simp only [List.length_cons] at hr
          rcases hro : (parseFieldPrefix dv (top :: rest)).out
            with e | ⟨fieldID, wireType⟩
          · simp only [hro]
            exact ⟨le_trans hr.1 hst, le_trans hr.2 hst⟩
          · simp only [hro]
            have hstk : (parseFieldPrefix dv (top :: rest)).stack.length ≤
                mD := le_trans hr.2 hst
            by_cases h0 : wireType = 0
            · rw [if_pos h0]
              have hb0 := parseUint64_bound dv fieldID
                (parseFieldPrefix dv (top :: rest)).stack
              have hb : (parseUint64 dv fieldID
                    (parseFieldPrefix dv (top :: rest)).stack).peak ≤ mD ∧
                  (parseUint64 dv fieldID
                    (parseFieldPrefix dv (top :: rest)).stack).stack.length ≤
                    mD :=
                ⟨le_trans hb0.1 hstk, le_trans hb0.2 hstk⟩
              rcases h2e : (parseUint64 dv fieldID
                  (parseFieldPrefix dv (top :: rest)).stack).err with _ | e
              · simp only [h2e]
                have h3 := ihF (parseUint64 dv fieldID
                  (parseFieldPrefix dv (top :: rest)).stack).stack hb.2
                refine ⟨?_, h3.2⟩
                simp only [Nat.max_le]
                exact ⟨le_trans hr.1 hst, hb.1, h3.1⟩
              · simp only [h2e]
                refine ⟨?_, hb.2⟩
                simp only [Nat.max_le]
                exact ⟨le_trans hr.1 hst, hb.1⟩
            · rw [if_neg h0]
              by_cases h2w : wireType = 2
              · rw [if_pos h2w]
                have hb := ihM fieldID
                  (parseFieldPrefix dv (top :: rest)).stack hstk
                rcases h2e : (parseMessage dv mL mD fuel fieldID
                    (parseFieldPrefix dv (top :: rest)).stack).err with _ | e
                · simp only [h2e]
                  have h3 := ihF (parseMessage dv mL mD fuel fieldID
                    (parseFieldPrefix dv (top :: rest)).stack).stack hb.2
                  refine ⟨?_, h3.2⟩
                  simp only [Nat.max_le]
                  exact ⟨le_trans hr.1 hst, hb.1, h3.1⟩
                · simp only [h2e]
                  refine ⟨?_, hb.2⟩
                  simp only [Nat.max_le]
                  exact ⟨le_trans hr.1 hst, hb.1⟩
              · rw [if_neg h2w]
                by_cases h3w : wireType = 3
                · rw [if_pos h3w]
                  have hb0 := parseBytes_bound dv fieldID
                    (parseFieldPrefix dv (top :: rest)).stack
                  have hb : (parseBytes dv fieldID
                        (parseFieldPrefix dv (top :: rest)).stack).peak ≤
                        mD ∧
                      (parseBytes dv fieldID
                        (parseFieldPrefix dv
                          (top :: rest)).stack).stack.length ≤ mD :=
                    ⟨le_trans hb0.1 hstk, le_trans hb0.2 hstk⟩
                  rcases h2e : (parseBytes dv fieldID
                      (parseFieldPrefix dv (top :: rest)).stack).err
                      with _ | e
                  · simp only [h2e]
                    have h3 := ihF (parseBytes dv fieldID
                      (parseFieldPrefix dv (top :: rest)).stack).stack hb.2
                    refine ⟨?_, h3.2⟩
                    simp only [Nat.max_le]
                    exact ⟨le_trans hr.1 hst, hb.1, h3.1⟩
                  · simp only [h2e]
                    refine ⟨?_, hb.2⟩
                    simp only [Nat.max_le]
                    exact ⟨le_trans hr.1 hst, hb.1⟩
                · rw [if_neg h3w]
                  simp only
                  refine ⟨?_, hstk⟩
                  simp only [Nat.max_le]
                  exact ⟨le_trans hr.1 hst, hstk⟩
    · intro fieldID st hst
      rw [parseMessage]
      have hl := parseLengthPrefixedData_bound dv st
      rcases hro : (parseLengthPrefixedData dv st).out with e | nested
      · simp only [hro]
        exact ⟨le_trans hl.1 hst, le_trans hl.2 hst⟩
      · simp only [hro]
        have hp := ihP nested (parseLengthPrefixedData dv st).stack
          (le_trans hl.2 hst)
        rcases h2e : (Parse dv mL mD fuel nested
            (parseLengthPrefixedData dv st).stack).err with _ | e
        · simp only [h2e]
          refine ⟨?_, hp.2⟩
          simp only [Nat.max_le]
          exact ⟨le_trans hl.1 hst, hp.1⟩
        · simp only [h2e]
          refine ⟨?_, hp.2⟩
          simp only [Nat.max_le]
          exact ⟨le_trans hl.1 hst, hp.1⟩

/-- C7: at every point during a `Parse` call — entry state, every state
inside recursive calls and across the transient pop/push around each
varint decode (all recorded by the ghost `peak`) — the nesting stack
length stays at most the configured `maxDepth`, for any codec. -/
theorem stack_depth_invariant (dv : List Nat → Option (Nat × Nat))
    (maxLength maxDepth fuel : Nat) (msg : List Nat) (st : Stack)
    (h : st.length ≤ maxDepth) :
    (Parse dv maxLength maxDepth fuel msg st).peak ≤ maxDepth :=
  ((peak_aux dv maxLength maxDepth fuel).1 msg st h).1

/-- Witness for C7: the concrete nested-message run peaks at 2 ≤ 8. -/
theorem stack_depth_invariant_witness :
    (Parse DecodeVarint 1024 8 20 [0x12, 0x02, 0x08, 0x07] []).peak ≤ 8 :=
  stack_depth_invariant DecodeVarint 1024 8 20 [0x12, 0x02, 0x08, 0x07] []
    (by decide)

theorem Balanced.append {xs ys : List Event} (hx : Balanced xs)
    (hy : Balanced ys) : Balanced (xs ++ ys) := by
  induction hx with
  | nil => simpa using hy
  | uint64 f v es _ ih => exact Balanced.uint64 f v (es ++ ys) ih
  | bytes f d es _ ih => exact Balanced.bytes f d (es ++ ys) ih
  | nested f inner es hinner hes ihinner ihes =>
    have h := Balanced.nested f inner (es ++ ys) hinner ihes
    simpa [List.append_assoc] using h

theorem parseUint64_events (dv : List Nat → Option (Nat × Nat))
    (fieldID : Nat) (st : Stack)
    (h : (parseUint64 dv fieldID st).err = none) :
    ∃ v, (parseUint64 dv fieldID st).events = [.uint64 fieldID v] := by
  rcases st with _ | ⟨slice, rest⟩
  · simp [parseUint64, parseVarint] at h
  · rcases hv : dv slice with _ | ⟨value, n⟩
    · simp [parseUint64, parseVarint, hv] at h
    · exact ⟨value, by simp [parseUint64, parseVarint, hv]⟩

theorem parseBytes_events (dv : List Nat → Option (Nat × Nat))
    (fieldID : Nat) (st : Stack)
    (h : (parseBytes dv fieldID st).err = none) :
    ∃ b, (parseBytes dv fieldID st).events = [.bytes fieldID b] := by
  rcases ho : (parseLengthPrefixedData dv st).out with e | data
  · simp only [parseBytes, ho] at h
    simp at h
  · exact ⟨data, by simp only [parseBytes, ho]⟩

/-- Simultaneous bracketing invariant: every run of the driver that
returns no error produces a balanced callback trace. -/
theorem balanced_aux (dv : List Nat → Option (Nat × Nat)) (mL mD : Nat)
    (fuel : Nat) :
    (∀ msg st, (Parse dv mL mD fuel msg st).err = none →
      Balanced (Parse dv mL mD fuel msg st).events) ∧
    (∀ st : Stack, (parseFields dv mL mD fuel st).err = none →
      Balanced (parseFields dv mL mD fuel st).events) ∧
    (∀ fieldID st, (parseMessage dv mL mD fuel fieldID st).err = none →
      Balanced (parseMessage dv mL mD fuel fieldID st).events) := by
  induction fuel with
  | zero =>
    refine ⟨?_, ?_, ?_⟩
    · intro msg st h
      simp [Parse] at h
    · intro st h
      simp [parseFields] at h
    · intro fieldID st h
      simp [parseMessage] at h
  | succ fuel ih =>
    obtain ⟨ihP, ihF, ihM⟩ := ih
    refine ⟨?_, ?_, ?_⟩
    · intro msg st h
      rw [Parse] at h ⊢
      by_cases h1 : msg.length > mL
      · rw [if_pos h1] at h
        simp at h
      · rw [if_neg h1] at h ⊢
        by_cases h2 : st.length ≥ mD
        · rw [if_pos h2] at h
          simp at h
        · rw [if_neg h2] at h ⊢
          exact ihF _ h
    · intro st h
      rcases st with _ | ⟨top, rest⟩
      · rw [parseFields] at h
        simp at h
      · rw [parseFields] at h ⊢
        by_cases hemp : top.isEmpty = true
        · rw [if_pos hemp]
          exact Balanced.nil
        · rw [if_neg hemp] at h ⊢
          rcases hro : (parseFieldPrefix dv (top :: rest)).out
            with e | ⟨fieldID, wireType⟩
          · simp only [hro] at h
            simp at h
          · simp only [hro] at h ⊢
            by_cases h0 : wireType = 0
            · rw [if_pos h0] at h ⊢
              rcases h2e : (parseUint64 dv fieldID
                  (parseFieldPrefix dv (top :: rest)).stack).err with _ | e
              · simp only [h2e] at h ⊢
                obtain ⟨v, hev⟩ := parseUint64_events dv fieldID
                  (parseFieldPrefix dv (top :: rest)).stack h2e
                rw [hev]
                exact Balanced.uint64 fieldID v _ (ihF _ h)
              · simp only [h2e] at h
                simp at h
            · rw [if_neg h0] at h ⊢
              by_cases h2w : wireType = 2
              · rw [if_pos h2w] at h ⊢
                rcases h2e : (parseMessage dv mL mD fuel fieldID
                    (parseFieldPrefix dv (top :: rest)).stack).err with _ | e
                · simp only [h2e] at h ⊢
                  exact Balanced.append (ihM fieldID _ h2e) (ihF _ h)
                · simp only [h2e] at h
                  simp at h
              · rw [if_neg h2w] at h ⊢
                by_cases h3w : wireType = 3
                · rw [if_pos h3w] at h ⊢
                  rcases h2e : (parseBytes dv fieldID
                      (parseFieldPrefix dv (top :: rest)).stack).err
                      with _ | e
                  · simp only [h2e] at h ⊢
                    obtain ⟨b, hev⟩ := parseBytes_events dv fieldID
                      (parseFieldPrefix dv (top :: rest)).stack h2e
                    rw [hev]
                    exact Balanced.bytes fieldID b _ (ihF _ h)
                  · simp only [h2e] at h
                    simp at h
                · rw [if_neg h3w] at h
                  simp at h
    · intro fieldID st h
      rw [parseMessage] at h ⊢
      rcases hro : (parseLengthPrefixedData dv st).out with e | nested
      · simp only [hro] at h
        simp at h
      · simp only [hro] at h ⊢
        rcases h2e : (Parse dv mL mD fuel nested
            (parseLengthPrefixedData dv st).stack).err with _ | e
        · simp only [h2e]
          have hinner := ihP nested (parseLengthPrefixedData dv st).stack h2e
          exact Balanced.nested fieldID _ [] hinner Balanced.nil
        · simp only [h2e] at h
          simp at h

theorem balanced_ne_single_begin {l : List Event} (hl : Balanced l) :
    l ≠ [Event.beginNested] := by
  induction hl with
  | nil => simp
  | uint64 f v es _ _ => simp
  | bytes f d es _ _ => simp
  | nested f inner es _ _ _ _ =>
    intro hc
    simp at hc

theorem not_balanced_single_begin : ¬ Balanced [Event.beginNested] :=
  fun h => balanced_ne_single_begin h rfl

/-- C6 counterexample: on input `[0x12, 0x05]` (a nested field whose
declared length exceeds the remaining bytes) `Parse` delivers
`BeginNested()` and then aborts with `Truncated`, so that `BeginNested`
has no matching `EndNested`: the claim as stated ("for every input to
Parse") is false. -/
theorem beginNested_unpaired_counterexample :
    (Parse DecodeVarint DefaultMaxLength DefaultMaxDepth 10
        [0x12, 0x05] []).events = [.beginNested] ∧
    (Parse DecodeVarint DefaultMaxLength DefaultMaxDepth 10
        [0x12, 0x05] []).err = some (.truncated 5 0) ∧
    ¬ Balanced (Parse DecodeVarint DefaultMaxLength DefaultMaxDepth 10
        [0x12, 0x05] []).events := by
  refine ⟨by decide, by decide, ?_⟩
  have he : (Parse DecodeVarint DefaultMaxLength DefaultMaxDepth 10
      [0x12, 0x05] []).events = [.beginNested] := by decide
  rw [he]
  exact not_balanced_single_begin

/-- C6 (amended): for every input on which `Parse` returns no error, the
delivered callback trace is properly bracketed — every `BeginNested()`
is paired with a matching `EndNested(fieldID)` and the pair brackets
exactly the callbacks delivered for that nested message, in the order
fields are encountered. -/
theorem balanced_events_of_success (dv : List Nat → Option (Nat × Nat))
    (maxLength maxDepth fuel : Nat) (msg : List Nat) (st : Stack)
    (h : (Parse dv maxLength maxDepth fuel msg st).err = none) :
    Balanced (Parse dv maxLength maxDepth fuel msg st).events :=
  (balanced_aux dv maxLength maxDepth fuel).1 msg st h

/-- Witness for amended C6: the concrete nested run's trace is balanced. -/
theorem balanced_events_of_success_witness :
    Balanced (Parse DecodeVarint 1024 8 20 [0x12, 0x02, 0x08, 0x07]
      []).events :=
  balanced_events_of_success DecodeVarint 1024 8 20
    [0x12, 0x02, 0x08, 0x07] [] (by decide)

end Veriform
